import Mathlib

/-!
Verification development for the KGC league pairing generators.

The repository contains four variants of a constrained pairing optimizer
(`generate_pairings.py`, `_v2.py`, `_v3.py`, `_v4.py`).  This file gives a
shallow embedding of the pairing phases those scripts implement and proves
or refutes the specified properties about them.

Modelling conventions:
* players are identified by their name strings, exactly as in the scripts,
  which look players up by the `Player Name` / `name` fields;
* the course-handicap lookup (`ch_lookup`) and the score lookup are
  association lists, mirroring the Python dicts built with
  `dict.get(name, default)` semantics;
* numeric scores are modelled as integers in the `V1` embedding (the code
  only adds and compares them) and as rationals in the `V2` embedding,
  where the literal margin `0.5` of the source matters;
* `itertools.permutations(remaining_gunners)` is modelled with
  `List.permutations`; both enumerations start with the input list itself,
  and none of the order-independent statements below depend on the rest of
  the enumeration order.
-/

namespace KGC

namespace V1

/-- Association-list model of a Python dict keyed by player name. -/
abbrev NameMap := List (String × Int)

/-- `d.get(name, 0)` on a handicap / score dict. -/
def mapGet (m : NameMap) (n : String) : Int :=
  ((m.find? (fun p => p.1 = n)).map Prod.snd).getD 0

/-- `MIN_CH_DIFF = 2` (generate_pairings.py line 137). -/
def MIN_CH_DIFF : Int := 2

/-- The hardcoded `EXCLUSIONS` dict of generate_pairings.py (lines 132-134),
read through `EXCLUSIONS.get(anchor_name, [])`. -/
def EXCLUSIONS (n : String) : List String :=
  if n = "Jacques vd Berg" then
    ["Gerdus Theron", "Frank Coetzee", "Marcelle Smith"]
  else []

/-- `get_ch_diff` (lines 184-187): absent players default to handicap 0. -/
def get_ch_diff (ch : NameMap) (anchor gunner : String) : Int :=
  |mapGet ch gunner - mapGet ch anchor|

/-- `is_valid_pairing` (lines 189-199): exclusion check, then the CH
difference check, the latter only when any CH data was loaded. -/
def is_valid_pairing (ch : NameMap) (anchor gunner : String) : Bool :=
  if gunner ∈ EXCLUSIONS anchor then false
  else if ¬ ch.isEmpty then
    if get_ch_diff ch anchor gunner < MIN_CH_DIFF then false else true
  else true

/-- `get_combined_score` (lines 201-202). -/
def get_combined_score (scores : NameMap) (anchor gunner : String) : Int :=
  mapGet scores anchor + mapGet scores gunner

/-- All pairings of one candidate assignment are valid (the inner loop of
the permutation search, which `break`s on the first invalid pair). -/
def pairsValid (ch : NameMap) (l : List (String × String)) : Bool :=
  l.all (fun p => is_valid_pairing ch p.1 p.2)

/-- Total combined score of one candidate assignment. -/
def totalScore (scores : NameMap) (l : List (String × String)) : Int :=
  (l.map (fun p => get_combined_score scores p.1 p.2)).sum

/-- One step of the permutation search (lines 257-269): keep the new
permutation only when it is valid and strictly improves the best score. -/
def searchStep (ch scores : NameMap) (anchors : List String)
    (st : Option (List (String × String)) × Int) (perm : List String) :
    Option (List (String × String)) × Int :=
  let pairs := anchors.zip perm
  if pairsValid ch pairs ∧ totalScore scores pairs > st.2 then
    (some pairs, totalScore scores pairs)
  else st

/-- All ways of inserting `x` into a list, front position first. -/
def insertEverywhere (x : String) : List String → List (List String)
  | [] => [[x]]
  | y :: ys => (x :: y :: ys) ::
      (insertEverywhere x ys).map (fun zs => y :: zs)

/-- The permutations of a list, the list itself first — the model of
`itertools.permutations`, whose enumeration also starts with the input
order.  (No statement below depends on the rest of the enumeration
order.) -/
def permutationsModel : List String → List (List String)
  | [] => [[]]
  | x :: xs => (permutationsModel xs).bind (insertEverywhere x)

theorem mem_insertEverywhere_perm (x : String) :
    ∀ (q p : List String), p ∈ insertEverywhere x q → p.Perm (x :: q) := by
  intro q
  induction q with
  | nil =>
    intro p hp
    rcases List.mem_cons.mp hp with h | h
    · subst h; exact List.Perm.refl _
    · exact absurd h (List.not_mem_nil p)
  | cons y ys ih =>
    intro p hp
    rcases List.mem_cons.mp hp with h | h
    · subst h; exact List.Perm.refl _
    · rcases List.mem_map.mp h with ⟨zs, hzs, hz⟩
      subst hz
      exact (List.Perm.cons y (ih zs hzs)).trans (List.Perm.swap x y ys)

theorem perm_of_mem_permutationsModel :
    ∀ (l p : List String), p ∈ permutationsModel l → p.Perm l := by
  intro l
  induction l with
  | nil =>
    intro p hp
    rcases List.mem_cons.mp hp with h | h
    · subst h; exact List.Perm.refl _
    · exact absurd h (List.not_mem_nil p)
  | cons x xs ih =>
    intro p hp
    rcases List.mem_bind.mp hp with ⟨q, hq, hpq⟩
    exact (mem_insertEverywhere_perm x q p hpq).trans
      (List.Perm.cons x (ih q hq))

theorem cons_mem_insertEverywhere (x : String) (q : List String) :
    (x :: q) ∈ insertEverywhere x q := by
  cases q with
  | nil => exact List.mem_cons_self _ _
  | cons y ys => exact List.mem_cons_self _ _

theorem self_mem_permutationsModel :
    ∀ (l : List String), l ∈ permutationsModel l := by
  intro l
  induction l with
  | nil => exact List.mem_cons_self _ _
  | cons x xs ih =>
    exact List.mem_bind.mpr ⟨xs, ih, cons_mem_insertEverywhere x xs⟩

/-- The permutation search of generate_pairings.py lines 253-269:
`best_assignment` starts at `None` with `best_total_score = -1` and every
permutation of the remaining gunners is tried, with no size guard. -/
def best_assignment (ch scores : NameMap) (anchors gunners : List String) :
    Option (List (String × String)) :=
  ((permutationsModel gunners).foldl (searchStep ch scores anchors)
    (none, -1)).1

/-- The greedy fallback (lines 274-282): for each anchor in order, take the
first gunner that is not yet used and not excluded; the CH constraint is
not checked here. -/
def fallbackGo (gunners : List String) :
    List String → List String → List (String × String)
  | [], _ => []
  | a :: rest, used =>
    match gunners.find? (fun g => ¬ g ∈ used ∧ ¬ g ∈ EXCLUSIONS a) with
    | some g => (a, g) :: fallbackGo gunners rest (g :: used)
    | none => fallbackGo gunners rest used

def fallback_assignment (anchors gunners : List String) :
    List (String × String) :=
  fallbackGo gunners anchors []

/-- The assignment the script ends up using: the permutation-search result
when one was found, the greedy fallback otherwise (lines 271-282). -/
def final_assignment (ch scores : NameMap) (anchors gunners : List String) :
    List (String × String) :=
  match best_assignment ch scores anchors gunners with
  | some a => a
  | none => fallback_assignment anchors gunners

/-- Specification-side recursion equivalent to the fold of the permutation
search: scan the permutations left to right carrying the best score so far
as a bound; a strict improvement by a valid permutation restarts the scan
on the tail with the improved bound. -/
def firstBestAux (ch scores : NameMap) (anchors : List String) :
    List (List String) → Int → Option (List (String × String) × Int)
  | [], _ => none
  | p :: ps, bound =>
    if pairsValid ch (anchors.zip p) ∧
        totalScore scores (anchors.zip p) > bound then
      match firstBestAux ch scores anchors ps
          (totalScore scores (anchors.zip p)) with
      | some r => some r
      | none => some (anchors.zip p, totalScore scores (anchors.zip p))
    else firstBestAux ch scores anchors ps bound

theorem foldl_searchStep_eq (ch scores : NameMap) (anchors : List String) :
    ∀ (l : List (List String)) (b0 : Option (List (String × String)))
      (s0 : Int),
      l.foldl (searchStep ch scores anchors) (b0, s0) =
        match firstBestAux ch scores anchors l s0 with
        | some r => (some r.1, r.2)
        | none => (b0, s0) := by
  intro l
  induction l with
  | nil => intro b0 s0; rfl
  | cons p ps ih =>
    intro b0 s0
    show List.foldl _ (searchStep ch scores anchors (b0, s0) p) ps = _
    by_cases hc : pairsValid ch (anchors.zip p) = true ∧
        totalScore scores (anchors.zip p) > s0
    · rw [firstBestAux]
      rw [if_pos hc]
      have hstep : searchStep ch scores anchors (b0, s0) p =
          (some (anchors.zip p), totalScore scores (anchors.zip p)) := by
        simp only [searchStep, hc, if_pos, and_self, gt_iff_lt, hc.1, hc.2]
      rw [hstep, ih]
      cases firstBestAux ch scores anchors ps
          (totalScore scores (anchors.zip p)) with
      | none => rfl
      | some r => rfl
    · rw [firstBestAux]
      rw [if_neg hc]
      have hstep : searchStep ch scores anchors (b0, s0) p = (b0, s0) := by
        simp only [searchStep]
        rw [if_neg hc]
      rw [hstep, ih]

theorem firstBestAux_none (ch scores : NameMap) (anchors : List String) :
    ∀ (l : List (List String)) (bound : Int),
      firstBestAux ch scores anchors l bound = none →
      ∀ p ∈ l, pairsValid ch (anchors.zip p) = true →
        totalScore scores (anchors.zip p) ≤ bound := by
  intro l
  induction l with
  | nil => intro bound _ p hp; cases hp
  | cons q ps ih =>
    intro bound h p hp hv
    by_cases hc : pairsValid ch (anchors.zip q) = true ∧
        totalScore scores (anchors.zip q) > bound
    · exfalso
      rw [firstBestAux, if_pos hc] at h
      cases hx : firstBestAux ch scores anchors ps
          (totalScore scores (anchors.zip q)) with
      | none => rw [hx] at h; exact Option.noConfusion h
      | some r => rw [hx] at h; exact Option.noConfusion h
    · rw [firstBestAux, if_neg hc] at h
      rcases List.mem_cons.mp hp with hpq | hmem
      · subst hpq
        by_contra hlt
        exact hc ⟨hv, lt_of_not_ge hlt⟩
      · exact ih bound h p hmem hv

theorem firstBestAux_some (ch scores : NameMap) (anchors : List String) :
    ∀ (l : List (List String)) (bound : Int)
      (pr : List (String × String)) (s : Int),
      firstBestAux ch scores anchors l bound = some (pr, s) →
      s > bound ∧
      ∃ i p, l.get? i = some p ∧ pr = anchors.zip p ∧
        pairsValid ch pr = true ∧ s = totalScore scores pr ∧
        ∀ j q, l.get? j = some q → pairsValid ch (anchors.zip q) = true →
          totalScore scores (anchors.zip q) ≤ s ∧
          (j < i → totalScore scores (anchors.zip q) < s) := by
  intro l
  induction l with
  | nil => intro bound pr s h; exact Option.noConfusion h
  | cons q ps ih =>
    intro bound pr s h
    by_cases hc : pairsValid ch (anchors.zip q) = true ∧
        totalScore scores (anchors.zip q) > bound
    · rw [firstBestAux, if_pos hc] at h
      cases hx : firstBestAux ch scores anchors ps
          (totalScore scores (anchors.zip q)) with
      | some r =>
        rw [hx] at h
        have hr : r = (pr, s) := Option.some.inj h
        subst hr
        rcases ih (totalScore scores (anchors.zip q)) pr s hx with
          ⟨hgt, i, p, hget, hzip, hval, hsc, hall⟩
        refine ⟨lt_trans hc.2 hgt, i + 1, p, hget, hzip, hval, hsc, ?_⟩
        intro j u hj hu
        cases j with
        | zero =>
          have hq : q = u := Option.some.inj hj
          subst hq
          exact ⟨le_of_lt hgt, fun _ => hgt⟩
        | succ j =>
          have hj' : ps.get? j = some u := hj
          rcases hall j u hj' hu with ⟨hle, hlt⟩
          exact ⟨hle, fun hji => hlt (Nat.succ_lt_succ_iff.mp hji)⟩
      | none =>
        rw [hx] at h
        have hpr : (anchors.zip q, totalScore scores (anchors.zip q)) =
            (pr, s) := Option.some.inj h
        have hpr1 : anchors.zip q = pr := congrArg Prod.fst hpr
        have hpr2 : totalScore scores (anchors.zip q) = s :=
          congrArg Prod.snd hpr
        refine ⟨hpr2 ▸ hc.2, 0, q, rfl, hpr1.symm, hpr1 ▸ hc.1,
          (hpr1 ▸ hpr2).symm, ?_⟩
        intro j u hj hu
        cases j with
        | zero =>
          have hq : q = u := Option.some.inj hj
          subst hq
          exact ⟨le_of_eq hpr2, fun hji => absurd hji (Nat.not_lt_zero 0)⟩
        | succ j =>
          have hj' : ps.get? j = some u := hj
          have := firstBestAux_none ch scores anchors ps
            (totalScore scores (anchors.zip q)) hx u
            (List.get?_mem hj') hu
          exact ⟨le_trans this (le_of_eq hpr2),
            fun hji => absurd hji (Nat.not_lt_zero _)⟩
    · rw [firstBestAux, if_neg hc] at h
      rcases ih bound pr s h with ⟨hgt, i, p, hget, hzip, hval, hsc, hall⟩
      refine ⟨hgt, i + 1, p, hget, hzip, hval, hsc, ?_⟩
      intro j u hj hu
      cases j with
      | zero =>
        have hq : q = u := Option.some.inj hj
        subst hq
        have hle : totalScore scores (anchors.zip q) ≤ bound := by
          by_contra hx
          exact hc ⟨hu, lt_of_not_ge hx⟩
        exact ⟨le_of_lt (lt_of_le_of_lt hle hgt),
          fun _ => lt_of_le_of_lt hle hgt⟩
      | succ j =>
        have hj' : ps.get? j = some u := hj
        rcases hall j u hj' hu with ⟨hle, hlt⟩
        exact ⟨hle, fun hji => hlt (Nat.succ_lt_succ_iff.mp hji)⟩

theorem best_assignment_eq (ch scores : NameMap)
    (anchors gunners : List String) :
    best_assignment ch scores anchors gunners =
      (firstBestAux ch scores anchors (permutationsModel gunners) (-1)).map
        Prod.fst := by
  unfold best_assignment
  rw [foldl_searchStep_eq]
  cases firstBestAux ch scores anchors (permutationsModel gunners) (-1) with
  | none => rfl
  | some r => rfl

/-- When the permutation search returns an assignment, it is the zip of the
anchors with some permutation of the gunners, it is valid, and no valid
permutation beats its total score. -/
theorem best_assignment_some (ch scores : NameMap)
    (anchors gunners : List String) (l : List (String × String))
    (h : best_assignment ch scores anchors gunners = some l) :
    ∃ p, p ∈ (permutationsModel gunners) ∧ l = anchors.zip p ∧
      pairsValid ch l = true ∧ totalScore scores l > -1 ∧
      ∀ q ∈ (permutationsModel gunners), pairsValid ch (anchors.zip q) = true →
        totalScore scores (anchors.zip q) ≤ totalScore scores l := by
  rw [best_assignment_eq] at h
  cases hx : firstBestAux ch scores anchors (permutationsModel gunners) (-1) with
  | none => rw [hx] at h; exact Option.noConfusion h
  | some r =>
    rw [hx] at h
    have hl : r.1 = l := Option.some.inj h
    rcases firstBestAux_some ch scores anchors (permutationsModel gunners) (-1)
        r.1 r.2 (by rw [hx]) with ⟨hgt, i, p, hget, hzip, hval, hsc, hall⟩
    refine ⟨p, List.get?_mem hget, ?_, ?_, ?_, ?_⟩
    · rw [← hl, hzip]
    · rw [← hl]; exact hval
    · rw [← hl, ← hsc]; exact hgt
    · intro q hq hqv
      rcases List.mem_iff_get?.mp hq with ⟨j, hj⟩
      have h2 := (hall j q hj hqv).1
      rw [← hl, ← hsc]
      exact h2

/-- The permutation search succeeds exactly when some permutation of the
gunners yields a valid assignment with total score above the `-1`
initialization — there is no size threshold in this criterion. -/
theorem best_assignment_isSome_iff (ch scores : NameMap)
    (anchors gunners : List String) :
    (best_assignment ch scores anchors gunners).isSome = true ↔
      ∃ p ∈ (permutationsModel gunners), pairsValid ch (anchors.zip p) = true ∧
        totalScore scores (anchors.zip p) > -1 := by
  rw [best_assignment_eq]
  constructor
  · intro h
    cases hx : firstBestAux ch scores anchors (permutationsModel gunners) (-1) with
    | none => rw [hx] at h; exact Bool.noConfusion h
    | some r =>
      rcases firstBestAux_some ch scores anchors (permutationsModel gunners) (-1)
          r.1 r.2 (by rw [hx]) with ⟨hgt, i, p, hget, hzip, hval, hsc, _⟩
      exact ⟨p, List.get?_mem hget, by rw [← hzip]; exact hval,
        by rw [← hzip, ← hsc]; exact hgt⟩
  · intro ⟨p, hp, hval, hsc⟩
    cases hx : firstBestAux ch scores anchors (permutationsModel gunners) (-1) with
    | none =>
      have := firstBestAux_none ch scores anchors (permutationsModel gunners) (-1)
        hx p hp hval
      omega
    | some r => simp [hx]

/-- Every pair of a successful permutation-search result passes
`is_valid_pairing`. -/
theorem best_assignment_mem_valid (ch scores : NameMap)
    (anchors gunners : List String) (l : List (String × String))
    (h : best_assignment ch scores anchors gunners = some l) :
    ∀ pr ∈ l, is_valid_pairing ch pr.1 pr.2 = true := by
  rcases best_assignment_some ch scores anchors gunners l h with
    ⟨p, _, _, hval, _, _⟩
  intro pr hpr
  exact List.all_eq_true.mp hval pr hpr

/-- The flattened list of member names of a pair list. -/
def pairNames (l : List (String × String)) : List String :=
  l.foldr (fun p acc => p.1 :: p.2 :: acc) []

theorem pairNames_cons (p : String × String) (l : List (String × String)) :
    pairNames (p :: l) = p.1 :: p.2 :: pairNames l := rfl

theorem pairNames_append (l₁ l₂ : List (String × String)) :
    pairNames (l₁ ++ l₂) = pairNames l₁ ++ pairNames l₂ := by
  induction l₁ with
  | nil => rfl
  | cons p l ih => simp [pairNames_cons, ih]

theorem mem_pairNames {n : String} :
    ∀ {l : List (String × String)},
      n ∈ pairNames l ↔ ∃ p ∈ l, n = p.1 ∨ n = p.2 := by
  intro l
  induction l with
  | nil => simp [pairNames]
  | cons p l ih =>
    rw [pairNames_cons]
    simp only [List.mem_cons, ih]
    constructor
    · rintro (h | h | ⟨q, hq, hh⟩)
      · exact ⟨p, Or.inl rfl, Or.inl h⟩
      · exact ⟨p, Or.inl rfl, Or.inr h⟩
      · exact ⟨q, Or.inr hq, hh⟩
    · rintro ⟨q, hq | hq, hh⟩
      · subst hq; rcases hh with h | h
        · exact Or.inl h
        · exact Or.inr (Or.inl h)
      · exact Or.inr (Or.inr ⟨q, hq, hh⟩)

theorem pairNames_zip_mem :
    ∀ (A B : List String) (n : String),
      n ∈ pairNames (A.zip B) → n ∈ A ∨ n ∈ B := by
  intro A
  induction A with
  | nil => intro B n h; cases h
  | cons a A ih =>
    intro B n h
    cases B with
    | nil => cases h
    | cons b B =>
      have hz : pairNames ((a :: A).zip (b :: B)) =
          a :: b :: pairNames (A.zip B) := rfl
      rw [hz] at h
      rcases List.mem_cons.mp h with h | h
      case _ =>
        exact Or.inl (h ▸ List.mem_cons_self _ _)
      rcases List.mem_cons.mp h with h | h
      · exact Or.inr (h ▸ List.mem_cons_self _ _)
      · rcases ih B n h with h | h
        · exact Or.inl (List.mem_cons_of_mem _ h)
        · exact Or.inr (List.mem_cons_of_mem _ h)

theorem pairNames_zip_nodup :
    ∀ (A B : List String), A.Nodup → B.Nodup → (∀ x ∈ A, x ∉ B) →
      (pairNames (A.zip B)).Nodup := by
  intro A
  induction A with
  | nil => intro B _ _ _; exact List.nodup_nil
  | cons a A ih =>
    intro B hA hB hd
    cases B with
    | nil => exact List.nodup_nil
    | cons b B =>
      have hz : pairNames ((a :: A).zip (b :: B)) =
          a :: b :: pairNames (A.zip B) := rfl
      rw [hz]
      have hA' : A.Nodup := (List.nodup_cons.mp hA).2
      have hB' : B.Nodup := (List.nodup_cons.mp hB).2
      have hd' : ∀ x ∈ A, x ∉ B := fun x hx hxB =>
        hd x (List.mem_cons_of_mem _ hx) (List.mem_cons_of_mem _ hxB)
      refine List.nodup_cons.mpr ⟨?_, List.nodup_cons.mpr ⟨?_, ih B hA' hB' hd'⟩⟩
      · intro hmem
        rcases List.mem_cons.mp hmem with h | h
        · exact hd a (List.mem_cons_self _ _) (h ▸ List.mem_cons_self _ _)
        · rcases pairNames_zip_mem A B a h with h | h
          · exact (List.nodup_cons.mp hA).1 h
          · exact hd a (List.mem_cons_self _ _) (List.mem_cons_of_mem _ h)
      · intro hmem
        rcases pairNames_zip_mem A B b hmem with h | h
        · exact hd b (List.mem_cons_of_mem _ h) (List.mem_cons_self _ _)
        · exact (List.nodup_cons.mp hB).1 h

/-- Every pair of the greedy fallback pairs a remaining anchor with a
non-excluded, not-yet-used gunner. -/
theorem fallbackGo_mem (gunners : List String) :
    ∀ (anchors used : List String) (pr : String × String),
      pr ∈ fallbackGo gunners anchors used →
      pr.1 ∈ anchors ∧ pr.2 ∈ gunners ∧ pr.2 ∉ used ∧
        pr.2 ∉ EXCLUSIONS pr.1 := by
  intro anchors
  induction anchors with
  | nil => intro used pr h; cases h
  | cons a rest ih =>
    intro used pr h
    rw [fallbackGo] at h
    cases hf : gunners.find? (fun g => ¬ g ∈ used ∧ ¬ g ∈ EXCLUSIONS a) with
    | some g =>
      rw [hf] at h
      have hg : g ∈ gunners := List.mem_of_find?_eq_some hf
      have hgp' : ¬ g ∈ used ∧ ¬ g ∈ EXCLUSIONS a := by
        simpa using List.find?_some hf
      rcases List.mem_cons.mp h with h | h
      · subst h
        exact ⟨List.mem_cons_self _ _, hg, hgp'.1, hgp'.2⟩
      · rcases ih (g :: used) pr h with ⟨h1, h2, h3, h4⟩
        exact ⟨List.mem_cons_of_mem _ h1, h2,
          fun hx => h3 (List.mem_cons_of_mem _ hx), h4⟩
    | none =>
      rw [hf] at h
      rcases ih used pr h with ⟨h1, h2, h3, h4⟩
      exact ⟨List.mem_cons_of_mem _ h1, h2, h3, h4⟩

/-- Member names of the greedy fallback output: no duplicates, and every
gunner component is fresh with respect to `used`. -/
theorem fallbackGo_nodup (gunners : List String) :
    ∀ (anchors used : List String), anchors.Nodup →
      (∀ x ∈ anchors, x ∉ gunners) →
      (pairNames (fallbackGo gunners anchors used)).Nodup ∧
      ∀ n ∈ pairNames (fallbackGo gunners anchors used),
        n ∈ anchors ∨ (n ∈ gunners ∧ n ∉ used) := by
  intro anchors
  induction anchors with
  | nil =>
    intro used _ _
    exact ⟨List.nodup_nil, fun n h => absurd h (List.not_mem_nil n)⟩
  | cons a rest ih =>
    intro used hnd hdis
    have hnd' : rest.Nodup := (List.nodup_cons.mp hnd).2
    have hdis' : ∀ x ∈ rest, x ∉ gunners := fun x hx =>
      hdis x (List.mem_cons_of_mem _ hx)
    rw [fallbackGo]
    cases hf : gunners.find? (fun g => ¬ g ∈ used ∧ ¬ g ∈ EXCLUSIONS a) with
    | some g =>
      have hg : g ∈ gunners := List.mem_of_find?_eq_some hf
      have hgp : ¬ g ∈ used ∧ ¬ g ∈ EXCLUSIONS a := by
        simpa using List.find?_some hf
      rcases ih (g :: used) hnd' hdis' with ⟨ihn, ihm⟩
      have hz : pairNames ((a, g) :: fallbackGo gunners rest (g :: used)) =
          a :: g :: pairNames (fallbackGo gunners rest (g :: used)) := rfl
      rw [hz]
      constructor
      · refine List.nodup_cons.mpr ⟨?_, List.nodup_cons.mpr ⟨?_, ihn⟩⟩
        · intro hmem
          rcases List.mem_cons.mp hmem with h | h
          · exact hdis a (List.mem_cons_self _ _) (h.symm ▸ hg)
          · rcases ihm a h with h' | h'
            · exact (List.nodup_cons.mp hnd).1 h'
            · exact hdis a (List.mem_cons_self _ _) h'.1
        · intro hmem
          rcases ihm g hmem with h' | h'
          · exact hdis' g h' hg
          · exact h'.2 (List.mem_cons_self _ _)
      · intro n hn
        rcases List.mem_cons.mp hn with h | h
        · subst h; exact Or.inl (List.mem_cons_self _ _)
        · rcases List.mem_cons.mp h with h' | h'
          · subst h'; exact Or.inr ⟨hg, hgp.1⟩
          · rcases ihm n h' with h'' | h''
            · exact Or.inl (List.mem_cons_of_mem _ h'')
            · exact Or.inr ⟨h''.1, fun hx => h''.2 (List.mem_cons_of_mem _ hx)⟩
    | none =>
      rcases ih used hnd' hdis' with ⟨ihn, ihm⟩
      refine ⟨ihn, fun n hn => ?_⟩
      rcases ihm n hn with h | h
      · exact Or.inl (List.mem_cons_of_mem _ h)
      · exact Or.inr h

/-- `REQUIRED_PAIRINGS` (generate_pairings.py lines 122-124). -/
def REQUIRED_PAIRINGS : List (String × String) :=
  [("Greg Park", "Hugo Lamprecht")]

/-- The anchor options of the `EITHER_OR_PAIRINGS` constraint
(lines 127-129), in declaration order. -/
def EITHER_OR_ANCHOR_OPTIONS : List String := ["Ian Scott", "Grant Syme"]

/-- The fixed gunner of the `EITHER_OR_PAIRINGS` constraint. -/
def EITHER_OR_GUNNER : String := "Matt Maritz"

/-- Step 1 of the constraint phase (lines 209-223): each required pairing
whose two members are found in either pool (both pools are searched) is
emitted and its members marked used; otherwise it is silently skipped. -/
def requiredStep (anchors gunners : List String) :
    List (String × String) × List String × List String :=
  REQUIRED_PAIRINGS.foldl
    (fun st pr =>
      if (pr.1 ∈ anchors ∨ pr.1 ∈ gunners) ∧
          (pr.2 ∈ gunners ∨ pr.2 ∈ anchors) then
        (st.1 ++ [pr], st.2.1 ++ [pr.1], st.2.2 ++ [pr.2])
      else st)
    ([], [], [])

/-- Step 2 of the constraint phase (lines 226-242): when the fixed gunner
is present and unused, try the anchor options in declaration order and
keep the first one that is present and unused; pair scores are not
consulted here. -/
def eitherOrStep (anchors gunners usedA usedG : List String) :
    Option (String × String) :=
  if (EITHER_OR_GUNNER ∈ gunners ∨ EITHER_OR_GUNNER ∈ anchors) ∧
      ¬ EITHER_OR_GUNNER ∈ usedG then
    (EITHER_OR_ANCHOR_OPTIONS.find? (fun an =>
        (an ∈ anchors ∨ an ∈ gunners) ∧ ¬ an ∈ usedA)).map
      (fun an => (an, EITHER_OR_GUNNER))
  else none

/-- The branch of the constraint phase after the required pairings:
incorporate the either/or pair, if any, into the pair list and the used
set. -/
def fixedPairsCore (anchors gunners usedA usedG : List String)
    (rp : List (String × String)) :
    List (String × String) × List String :=
  match eitherOrStep anchors gunners usedA usedG with
  | some p => (rp ++ [p], usedA ++ usedG ++ [p.1, p.2])
  | none => (rp, usedA ++ usedG)

/-- The constraint pairs and the set of used players after the constraint
phase (lines 204-246, `all_used_players`). -/
def fixedPairs (anchors gunners : List String) :
    List (String × String) × List String :=
  fixedPairsCore anchors gunners (requiredStep anchors gunners).2.1
    (requiredStep anchors gunners).2.2 (requiredStep anchors gunners).1

/-- The complete pair list of one run of generate_pairings.py
(lines 204-303): constraint pairs first, then the optimized (or fallback)
assignment over the players remaining after the constraint phase.  The
script then re-sorts this list by combined score for display, which does
not change its members. -/
def all_pairs (ch scores : NameMap) (anchors gunners : List String) :
    List (String × String) :=
  let fp := fixedPairs anchors gunners
  let remA := anchors.filter (fun n => ¬ n ∈ fp.2)
  let remG := gunners.filter (fun n => ¬ n ∈ fp.2)
  fp.1 ++ final_assignment ch scores remA remG

theorem requiredStep_eq (anchors gunners : List String) :
    requiredStep anchors gunners =
      if ("Greg Park" ∈ anchors ∨ "Greg Park" ∈ gunners) ∧
          ("Hugo Lamprecht" ∈ gunners ∨ "Hugo Lamprecht" ∈ anchors) then
        ([("Greg Park", "Hugo Lamprecht")], ["Greg Park"],
          ["Hugo Lamprecht"])
      else ([], [], []) := rfl

theorem eitherOrStep_some (anchors gunners usedA usedG : List String)
    (p : String × String)
    (h : eitherOrStep anchors gunners usedA usedG = some p) :
    (p.1 = "Ian Scott" ∨ p.1 = "Grant Syme") ∧ p.2 = "Matt Maritz" := by
  unfold eitherOrStep at h
  by_cases hc : (EITHER_OR_GUNNER ∈ gunners ∨ EITHER_OR_GUNNER ∈ anchors) ∧
      ¬ EITHER_OR_GUNNER ∈ usedG
  · rw [if_pos hc] at h
    cases hf : EITHER_OR_ANCHOR_OPTIONS.find? (fun an =>
        (an ∈ anchors ∨ an ∈ gunners) ∧ ¬ an ∈ usedA) with
    | none => rw [hf] at h; exact Option.noConfusion h
    | some an =>
      rw [hf] at h
      have hp : (an, EITHER_OR_GUNNER) = p := Option.some.inj h
      have han : an ∈ EITHER_OR_ANCHOR_OPTIONS :=
        List.mem_of_find?_eq_some hf
      have han2 : an = "Ian Scott" ∨ an = "Grant Syme" := by
        rcases List.mem_cons.mp han with h1 | h1
        · exact Or.inl h1
        · rcases List.mem_cons.mp h1 with h2 | h2
          · exact Or.inr h2
          · exact absurd h2 (List.not_mem_nil an)
      rw [← hp]
      exact ⟨han2, rfl⟩
  · rw [if_neg hc] at h
    exact Option.noConfusion h

theorem fixedPairsCore_spec (anchors gunners usedA usedG : List String)
    (rp : List (String × String))
    (hn : (pairNames rp).Nodup)
    (hm : ∀ n ∈ pairNames rp, n ∈ usedA ++ usedG)
    (hdm : ∀ n ∈ pairNames rp, n ≠ "Ian Scott" ∧ n ≠ "Grant Syme" ∧
      n ≠ "Matt Maritz") :
    (pairNames (fixedPairsCore anchors gunners usedA usedG rp).1).Nodup ∧
    ∀ n ∈ pairNames (fixedPairsCore anchors gunners usedA usedG rp).1,
      n ∈ (fixedPairsCore anchors gunners usedA usedG rp).2 := by
  unfold fixedPairsCore
  cases he : eitherOrStep anchors gunners usedA usedG with
  | none =>
    exact ⟨hn, hm⟩
  | some p =>
    rcases eitherOrStep_some _ _ _ _ p he with ⟨h1, h2⟩
    rw [pairNames_append]
    constructor
    · refine List.Nodup.append hn ?_ ?_
      · obtain ⟨pa, pb⟩ := p
        simp only at h1 h2
        subst h2
        rcases h1 with h1 | h1 <;> subst h1 <;> decide
      · intro n hmem hmem2
        have hz : pairNames [p] = [p.1, p.2] := rfl
        rw [hz] at hmem2
        rcases hdm n hmem with ⟨d1, d2, d3⟩
        rcases List.mem_cons.mp hmem2 with h3 | h3
        · rcases h1 with h1 | h1 <;> rw [h1] at h3
          · exact d1 h3
          · exact d2 h3
        · rcases List.mem_cons.mp h3 with h4 | h4
          · rw [h2] at h4; exact d3 h4
          · exact absurd h4 (List.not_mem_nil n)
    · intro n hmem
      rcases List.mem_append.mp hmem with h3 | h3
      · exact List.mem_append_left _ (hm n h3)
      · have hz : pairNames [p] = [p.1, p.2] := rfl
        rw [hz] at h3
        refine List.mem_append_right _ ?_
        rcases List.mem_cons.mp h3 with h4 | h4
        · exact h4 ▸ List.mem_cons_self _ _
        · rcases List.mem_cons.mp h4 with h5 | h5
          · exact h5 ▸ List.mem_cons_of_mem _ (List.mem_cons_self _ _)
          · exact absurd h5 (List.not_mem_nil n)

/-- The constraint phase emits pairs over pairwise distinct names, all of
which are recorded in the used set. -/
theorem fixedPairs_spec (anchors gunners : List String) :
    (pairNames (fixedPairs anchors gunners).1).Nodup ∧
    ∀ n ∈ pairNames (fixedPairs anchors gunners).1,
      n ∈ (fixedPairs anchors gunners).2 := by
  by_cases hr : ("Greg Park" ∈ anchors ∨ "Greg Park" ∈ gunners) ∧
      ("Hugo Lamprecht" ∈ gunners ∨ "Hugo Lamprecht" ∈ anchors)
  · have hrs : requiredStep anchors gunners =
        ([("Greg Park", "Hugo Lamprecht")], ["Greg Park"],
          ["Hugo Lamprecht"]) := by
      rw [requiredStep_eq, if_pos hr]
    have hfix : fixedPairs anchors gunners =
        fixedPairsCore anchors gunners ["Greg Park"] ["Hugo Lamprecht"]
          [("Greg Park", "Hugo Lamprecht")] := by
      unfold fixedPairs
      rw [hrs]
    rw [hfix]
    exact fixedPairsCore_spec anchors gunners _ _ _ (by decide)
      (by decide) (by decide)
  · have hrs : requiredStep anchors gunners = ([], [], []) := by
      rw [requiredStep_eq, if_neg hr]
    have hfix : fixedPairs anchors gunners =
        fixedPairsCore anchors gunners [] [] [] := by
      unfold fixedPairs
      rw [hrs]
    rw [hfix]
    exact fixedPairsCore_spec anchors gunners _ _ _ (by decide)
      (by decide) (by decide)

theorem final_assignment_of_some (ch scores : NameMap)
    (anchors gunners : List String) (l : List (String × String))
    (hb : best_assignment ch scores anchors gunners = some l) :
    final_assignment ch scores anchors gunners = l := by
  unfold final_assignment
  rw [hb]

theorem final_assignment_of_none (ch scores : NameMap)
    (anchors gunners : List String)
    (hb : best_assignment ch scores anchors gunners = none) :
    final_assignment ch scores anchors gunners =
      fallbackGo gunners anchors [] := by
  unfold final_assignment
  rw [hb]
  rfl

/-- No player name occurs twice across the whole output of one run:
required pairs, the either/or pair, and the exact-search (or fallback)
assignment never share a member, provided the two input pools have
pairwise distinct names. -/
theorem all_pairs_nodup (ch scores : NameMap) (anchors gunners : List String)
    (h : (anchors ++ gunners).Nodup) :
    (pairNames (all_pairs ch scores anchors gunners)).Nodup := by
  rcases List.nodup_append.mp h with ⟨hA, hG, hAG⟩
  unfold all_pairs
  rw [pairNames_append]
  rcases fixedPairs_spec anchors gunners with ⟨hfn, hfm⟩
  set fp := fixedPairs anchors gunners with hfp
  set remA := anchors.filter (fun n => ¬ n ∈ fp.2) with hremA
  set remG := gunners.filter (fun n => ¬ n ∈ fp.2) with hremG
  have hremA_nodup : remA.Nodup := hA.filter _
  have hremG_nodup : remG.Nodup := hG.filter _
  have hremA_sub : ∀ n ∈ remA, n ∈ anchors ∧ ¬ n ∈ fp.2 := by
    intro n hn
    rcases List.mem_filter.mp hn with ⟨h1, h2⟩
    exact ⟨h1, of_decide_eq_true h2⟩
  have hremG_sub : ∀ n ∈ remG, n ∈ gunners ∧ ¬ n ∈ fp.2 := by
    intro n hn
    rcases List.mem_filter.mp hn with ⟨h1, h2⟩
    exact ⟨h1, of_decide_eq_true h2⟩
  have hdisj : ∀ x ∈ remA, x ∉ remG := by
    intro x hx hxg
    exact hAG (hremA_sub x hx).1 (hremG_sub x hxg).1
  have hauto : ∀ n ∈ pairNames (final_assignment ch scores remA remG),
      (n ∈ remA ∨ n ∈ remG) := by
    intro n hn
    cases hb : best_assignment ch scores remA remG with
    | some l =>
      rw [final_assignment_of_some ch scores remA remG l hb] at hn
      rcases best_assignment_some ch scores remA remG l hb with
        ⟨p, hp, hzip, _, _, _⟩
      rw [hzip] at hn
      rcases pairNames_zip_mem remA p n hn with h1 | h1
      · exact Or.inl h1
      · exact Or.inr ((perm_of_mem_permutationsModel remG p hp).mem_iff.mp h1)
    | none =>
      rw [final_assignment_of_none ch scores remA remG hb] at hn
      rcases (fallbackGo_nodup remG remA [] hremA_nodup hdisj).2 n hn with
        h1 | h1
      · exact Or.inl h1
      · exact Or.inr h1.1
  have hauto_nodup :
      (pairNames (final_assignment ch scores remA remG)).Nodup := by
    cases hb : best_assignment ch scores remA remG with
    | some l =>
      rw [final_assignment_of_some ch scores remA remG l hb]
      rcases best_assignment_some ch scores remA remG l hb with
        ⟨p, hp, hzip, _, _, _⟩
      rw [hzip]
      have hperm := perm_of_mem_permutationsModel remG p hp
      refine pairNames_zip_nodup remA p hremA_nodup
        (hperm.nodup_iff.mpr hremG_nodup) ?_
      intro x hx hxp
      exact hdisj x hx (hperm.mem_iff.mp hxp)
    | none =>
      rw [final_assignment_of_none ch scores remA remG hb]
      exact (fallbackGo_nodup remG remA [] hremA_nodup hdisj).1
  refine List.Nodup.append hfn hauto_nodup ?_
  intro n hn hn2
  rcases hauto n hn2 with h1 | h1
  · exact (hremA_sub n h1).2 (hfm n hn)
  · exact (hremG_sub n h1).2 (hfm n hn)

end V1

namespace V2

/-- Exact rational numbers as unreduced fractions with positive
denominator — the model of the float score arithmetic of
generate_pairings_v2.py.  No normalization is performed, so every
operation is a plain integer computation; comparisons cross-multiply,
which is sound because every denominator built below is positive. -/
structure Frac where
  num : Int
  den : Int
deriving DecidableEq, Repr

def Frac.add (x y : Frac) : Frac :=
  ⟨x.num * y.den + y.num * x.den, x.den * y.den⟩

def Frac.sub (x y : Frac) : Frac :=
  ⟨x.num * y.den - y.num * x.den, x.den * y.den⟩

def Frac.mul (x y : Frac) : Frac := ⟨x.num * y.num, x.den * y.den⟩

/-- Division by a positive natural (the only division the code performs:
`/ len(scores)`). -/
def Frac.divNat (x : Frac) (n : Nat) : Frac := ⟨x.num, x.den * n⟩

/-- `x < y` by cross multiplication (denominators positive). -/
def Frac.blt (x y : Frac) : Bool := x.num * y.den < y.num * x.den

/-- Python `min` of two floats: the first argument wins ties. -/
def Frac.min2 (x y : Frac) : Frac := if Frac.blt y x then y else x

/-- An integer as a fraction. -/
def Frac.ofInt (n : Int) : Frac := ⟨n, 1⟩

/-- The literal `0.5` of v2 line 428. -/
def half : Frac := ⟨1, 2⟩

/-- A scored candidate pairing `(p1, p2, score)` as handed to
`find_balanced_pairings` in generate_pairings_v2.py. -/
structure SPair where
  n1 : String
  n2 : String
  score : Frac
deriving DecidableEq, Repr

/-- The flattened member names of a scored pair list. -/
def spairNames (l : List SPair) : List String :=
  l.foldr (fun p acc => p.n1 :: p.n2 :: acc) []

/-- The loop of `greedy_balanced` (v2 lines 364-393): while fewer than
`pairs_needed` pairs are selected and pairs remain, filter to pairs with no
used player, pick index `min(len(valid)//4, len(valid)-1)` on even
selection counts and `len(valid)//2` on odd ones, then mark both players
used and re-filter the remaining pairs.  The fuel argument is the number
of selections still allowed, which the loop bound `len(selected) <
pairs_needed` makes exact. -/
def greedyBalancedGo : Nat → Nat → List SPair → List String → List SPair
  | 0, _, _, _ => []
  | fuel + 1, selCount, remaining, used =>
    if remaining.isEmpty then []
    else
      let valid := remaining.filter
        (fun p => ¬ p.n1 ∈ used ∧ ¬ p.n2 ∈ used)
      if valid.isEmpty then []
      else
        let idx := if selCount % 2 = 0 then
            min (valid.length / 4) (valid.length - 1)
          else valid.length / 2
        let pk := valid.getD idx ⟨"", "", ⟨0, 1⟩⟩
        let used2 := used ++ [pk.n1, pk.n2]
        pk :: greedyBalancedGo fuel (selCount + 1)
          (remaining.filter (fun p => ¬ p.n1 ∈ used2 ∧ ¬ p.n2 ∈ used2))
          used2

def greedy_balanced (needed : Nat) (l : List SPair) : List SPair :=
  greedyBalancedGo needed 0 l []

/-- `pure_greedy` (v2 lines 399-409): walk the pair list in its given
order, keeping every pair with no used player, and stop once
`pairs_needed` pairs are kept. -/
def pureGreedyGo (needed : Nat) :
    List SPair → List String → Nat → List SPair
  | [], _, _ => []
  | p :: rest, used, count =>
    if ¬ p.n1 ∈ used ∧ ¬ p.n2 ∈ used then
      if needed ≤ count + 1 then [p]
      else p :: pureGreedyGo needed rest (used ++ [p.n1, p.n2]) (count + 1)
    else pureGreedyGo needed rest used count

def pure_greedy (needed : Nat) (l : List SPair) : List SPair :=
  pureGreedyGo needed l [] 0

/-- Python `min` over the (nonempty, in every reachable call) score
list. -/
def listMin (l : List Frac) : Frac :=
  l.foldl Frac.min2 (l.headD ⟨0, 1⟩)

/-- Sum of a score list. -/
def listSum (l : List Frac) : Frac := l.foldl Frac.add ⟨0, 1⟩

/-- `evaluate` (v2 lines 414-421): solutions shorter than `pairs_needed`
rate as `(float('inf'), -1)`; `none` models the infinite variance. -/
def evaluate (needed : Nat) (sol : List SPair) : Option Frac × Frac :=
  if sol.length < needed then (none, ⟨-1, 1⟩)
  else
    let scores := sol.map SPair.score
    let avg := (listSum scores).divNat scores.length
    (some ((listSum (scores.map (fun sc =>
        Frac.mul (Frac.sub sc avg) (Frac.sub sc avg)))).divNat
        scores.length),
      listMin scores)

/-- `<` on variances with `float('inf')` represented by `none`:
`inf < x` is false for every x, and `x < inf` is true for finite x. -/
def varLt : Option Frac → Option Frac → Bool
  | none, _ => false
  | some _, none => true
  | some a, some b => Frac.blt a b

/-- The solution comparison of `find_balanced_pairings` (v2 lines
423-435): prefer the solution whose minimum exceeds the other by more than
`0.5`; within that margin fall back to strictly smaller variance, choosing
the pure-greedy solution on variance ties. -/
def find_balanced_pairings (needed : Nat) (l : List SPair) : List SPair :=
  if Frac.blt (Frac.add (evaluate needed (pure_greedy needed l)).2 half)
      (evaluate needed (greedy_balanced needed l)).2 then
    greedy_balanced needed l
  else if Frac.blt
      (Frac.add (evaluate needed (greedy_balanced needed l)).2 half)
      (evaluate needed (pure_greedy needed l)).2 then
    pure_greedy needed l
  else if varLt (evaluate needed (greedy_balanced needed l)).1
      (evaluate needed (pure_greedy needed l)).1 then
    greedy_balanced needed l
  else pure_greedy needed l

theorem find_balanced_cases (needed : Nat) (l : List SPair) :
    find_balanced_pairings needed l = greedy_balanced needed l ∨
    find_balanced_pairings needed l = pure_greedy needed l := by
  unfold find_balanced_pairings
  split_ifs
  · exact Or.inl rfl
  · exact Or.inr rfl
  · exact Or.inl rfl
  · exact Or.inr rfl

theorem evaluate_snd (needed : Nat) (sol : List SPair)
    (h : ¬ sol.length < needed) :
    (evaluate needed sol).2 = listMin (sol.map SPair.score) := by
  unfold evaluate
  rw [if_neg h]

theorem spairNames_cons (p : SPair) (l : List SPair) :
    spairNames (p :: l) = p.n1 :: p.n2 :: spairNames l := rfl

/-- The balanced selection loop never reuses a player: its output names
are pairwise distinct and avoid the incoming used set, for any input list
of non-degenerate pairs. -/
theorem greedyBalancedGo_nodup :
    ∀ (fuel selCount : Nat) (remaining : List SPair) (used : List String),
      (∀ p ∈ remaining, p.n1 ≠ p.n2) →
      (spairNames (greedyBalancedGo fuel selCount remaining used)).Nodup ∧
      ∀ n ∈ spairNames (greedyBalancedGo fuel selCount remaining used),
        ¬ n ∈ used := by
  intro fuel
  induction fuel with
  | zero =>
    intro selCount remaining used _
    exact ⟨List.nodup_nil, fun n h => absurd h (List.not_mem_nil n)⟩
  | succ fuel ih =>
    intro selCount remaining used hne
    rw [greedyBalancedGo]
    by_cases hre : remaining.isEmpty
    · rw [if_pos hre]
      exact ⟨List.nodup_nil, fun n h => absurd h (List.not_mem_nil n)⟩
    · rw [if_neg hre]
      set valid := remaining.filter
        (fun p => ¬ p.n1 ∈ used ∧ ¬ p.n2 ∈ used) with hvalid
      by_cases hva : valid.isEmpty
      · rw [if_pos hva]
        exact ⟨List.nodup_nil, fun n h => absurd h (List.not_mem_nil n)⟩
      · rw [if_neg hva]
        set idx := if selCount % 2 = 0 then
            min (valid.length / 4) (valid.length - 1)
          else valid.length / 2 with hidxdef
        set pk := valid.getD idx ⟨"", "", ⟨0, 1⟩⟩ with hpkdef
        have hvne : valid ≠ [] := by
          intro hv
          rw [hv] at hva
          exact hva rfl
        have hvlen : 0 < valid.length := List.length_pos.mpr hvne
        have hidx : idx < valid.length := by
          rw [hidxdef]
          by_cases hpar : selCount % 2 = 0
          · rw [if_pos hpar]
            exact lt_of_le_of_lt (min_le_right _ _)
              (Nat.sub_lt hvlen Nat.one_pos)
          · rw [if_neg hpar]
            exact Nat.div_lt_self hvlen (by omega)
        have hpk_mem : pk ∈ valid := by
          rw [hpkdef, List.getD_eq_get _ _ hidx]
          exact List.get_mem _ _ _
        have hpk_rem : pk ∈ remaining ∧ ¬ pk.n1 ∈ used ∧ ¬ pk.n2 ∈ used := by
          rcases List.mem_filter.mp hpk_mem with ⟨h1, h2⟩
          exact ⟨h1, of_decide_eq_true h2⟩
        have hpk_ne : pk.n1 ≠ pk.n2 := hne pk hpk_rem.1
        set used2 := used ++ [pk.n1, pk.n2] with hused2
        set rem2 := remaining.filter
          (fun p => ¬ p.n1 ∈ used2 ∧ ¬ p.n2 ∈ used2) with hrem2
        have hne2 : ∀ p ∈ rem2, p.n1 ≠ p.n2 := fun p hp =>
          hne p (List.mem_filter.mp hp).1
        rcases ih (selCount + 1) rem2 used2 hne2 with ⟨ihn, ihm⟩
        rw [spairNames_cons]
        have hn1u2 : pk.n1 ∈ used2 := by
          rw [hused2]
          exact List.mem_append_right _ (List.mem_cons_self _ _)
        have hn2u2 : pk.n2 ∈ used2 := by
          rw [hused2]
          exact List.mem_append_right _
            (List.mem_cons_of_mem _ (List.mem_cons_self _ _))
        constructor
        · refine List.nodup_cons.mpr ⟨?_, List.nodup_cons.mpr ⟨?_, ihn⟩⟩
          · intro hmem
            rcases List.mem_cons.mp hmem with h1 | h1
            · exact hpk_ne h1
            · exact ihm pk.n1 h1 hn1u2
          · intro hmem
            exact ihm pk.n2 hmem hn2u2
        · intro n hmem
          rcases List.mem_cons.mp hmem with h1 | h1
          · rw [h1]; exact hpk_rem.2.1
          · rcases List.mem_cons.mp h1 with h2 | h2
            · rw [h2]; exact hpk_rem.2.2
            · intro hnu
              refine ihm n h2 ?_
              rw [hused2]
              exact List.mem_append_left _ hnu

/-- The pure-greedy loop never reuses a player either. -/
theorem pureGreedyGo_nodup (needed : Nat) :
    ∀ (l : List SPair) (used : List String) (count : Nat),
      (∀ p ∈ l, p.n1 ≠ p.n2) →
      (spairNames (pureGreedyGo needed l used count)).Nodup ∧
      ∀ n ∈ spairNames (pureGreedyGo needed l used count), ¬ n ∈ used := by
  intro l
  induction l with
  | nil =>
    intro used count _
    exact ⟨List.nodup_nil, fun n h => absurd h (List.not_mem_nil n)⟩
  | cons p rest ih =>
    intro used count hne
    rw [pureGreedyGo]
    by_cases hva : ¬ p.n1 ∈ used ∧ ¬ p.n2 ∈ used
    · rw [if_pos hva]
      have hpne : p.n1 ≠ p.n2 := hne p (List.mem_cons_self _ _)
      by_cases hcnt : needed ≤ count + 1
      · rw [if_pos hcnt]
        refine ⟨List.nodup_cons.mpr ⟨?_, List.nodup_cons.mpr
          ⟨List.not_mem_nil _, List.nodup_nil⟩⟩, ?_⟩
        · intro hmem
          rcases List.mem_cons.mp hmem with h1 | h1
          · exact hpne h1
          · exact absurd h1 (List.not_mem_nil _)
        · intro n hmem
          rcases List.mem_cons.mp hmem with h1 | h1
          · rw [h1]; exact hva.1
          · rcases List.mem_cons.mp h1 with h2 | h2
            · rw [h2]; exact hva.2
            · exact absurd h2 (List.not_mem_nil n)
      · rw [if_neg hcnt]
        have hne2 : ∀ q ∈ rest, q.n1 ≠ q.n2 := fun q hq =>
          hne q (List.mem_cons_of_mem _ hq)
        rcases ih (used ++ [p.n1, p.n2]) (count + 1) hne2 with ⟨ihn, ihm⟩
        rw [spairNames_cons]
        constructor
        · refine List.nodup_cons.mpr ⟨?_, List.nodup_cons.mpr ⟨?_, ihn⟩⟩
          · intro hmem
            rcases List.mem_cons.mp hmem with h1 | h1
            · exact hpne h1
            · exact ihm p.n1 h1 (List.mem_append_right _
                (List.mem_cons_self _ _))
          · intro hmem
            exact ihm p.n2 hmem (List.mem_append_right _
              (List.mem_cons_of_mem _ (List.mem_cons_self _ _)))
        · intro n hmem
          rcases List.mem_cons.mp hmem with h1 | h1
          · rw [h1]; exact hva.1
          · rcases List.mem_cons.mp h1 with h2 | h2
            · rw [h2]; exact hva.2
            · exact fun hnu => ihm n h2 (List.mem_append_left _ hnu)
    · rw [if_neg hva]
      exact ih used count (fun q hq => hne q (List.mem_cons_of_mem _ hq))

/-- Whichever of the two candidate solutions the comparison returns, no
player appears in two of its pairs. -/
theorem find_balanced_pairings_nodup (needed : Nat) (l : List SPair)
    (hne : ∀ p ∈ l, p.n1 ≠ p.n2) :
    (spairNames (find_balanced_pairings needed l)).Nodup := by
  rcases find_balanced_cases needed l with h | h <;> rw [h]
  · exact (greedyBalancedGo_nodup needed 0 l [] hne).1
  · exact (pureGreedyGo_nodup needed l [] 0 hne).1

end V2

namespace V3

/-- The fields of a generate_pairings_v3.py player record that the pairing
phase reads.  `hi` and `cvs` are floats in the source, modelled as
integers since the phase only compares and adds them. -/
structure Player where
  name : String
  hi : Int
  cvs : Int
  canPlayHome : Bool
deriving DecidableEq, Repr

/-- `REQUIRED_PAIRINGS` of generate_pairings_v3.py (lines 35-39). -/
def REQUIRED_PAIRINGS : List (String × String) :=
  [("Greg Park", "Hugo Lamprecht"),
   ("Jacques vd Berg", "Brandon Bester"),
   ("Ian Scott", "Matt Maritz")]

/-- `find_player` (v3 lines 230-234): first record with the given name. -/
def find_player (sel : List Player) (n : String) : Option Player :=
  sel.find? (fun p => p.name = n)

/-- The pairing record built by `make_pairing` (v3 lines 237-250),
restricted to the fields read later. -/
structure Pairing where
  anchor : Player
  gunner : Player
  pairCvs : Int
  canPlayHome : Bool
  constraint : String
deriving DecidableEq, Repr

def make_pairing (anchor gunner : Player) (c : String) : Pairing :=
  { anchor := anchor
    gunner := gunner
    pairCvs := anchor.cvs + gunner.cvs
    canPlayHome := anchor.canPlayHome && gunner.canPlayHome
    constraint := c }

/-- One iteration of the required-pairings loop (v3 lines 256-275): when
both members are found in `selected`, emit a `REQUIRED` pairing with the
lower-`hi` member as anchor and record both names as used; when a member
is missing, only a console warning is printed and the constraint is
skipped. -/
def applyRequiredStep (sel : List Player)
    (st : List Pairing × List String) (pr : String × String) :
    List Pairing × List String :=
  match find_player sel pr.1, find_player sel pr.2 with
  | some p1, some p2 =>
    if p1.hi < p2.hi then
      (st.1 ++ [make_pairing p1 p2 "REQUIRED"], st.2 ++ [p1.name, p2.name])
    else
      (st.1 ++ [make_pairing p2 p1 "REQUIRED"], st.2 ++ [p2.name, p1.name])
  | _, _ => st

def applyRequired (sel : List Player) : List Pairing × List String :=
  REQUIRED_PAIRINGS.foldl (applyRequiredStep sel) ([], [])

/-- Stable insertion into an ascending-`hi` list (earlier elements stay
before equal keys, like Python `list.sort`). -/
def insertLeHi (x : Player) : List Player → List Player
  | [] => [x]
  | y :: ys => if x.hi ≤ y.hi then x :: y :: ys else y :: insertLeHi x ys

def sortByHi (l : List Player) : List Player := l.foldr insertLeHi []

/-- Stable insertion into a descending-`cvs` list. -/
def insertGeCvs (x : Player) : List Player → List Player
  | [] => [x]
  | y :: ys => if x.cvs ≥ y.cvs then x :: y :: ys else y :: insertGeCvs x ys

def sortByCvsDesc (l : List Player) : List Player := l.foldr insertGeCvs []

/-- The default player record used only to read list cells that the
source guarantees to be in range. -/
def dummy : Player := ⟨"", 0, 0, false⟩

/-- The auto-fill phase (v3 lines 278-298): the players left after the
required pairings are re-split at the median `hi`, each half sorted by
`cvs` descending, and pair `i` joins the `i`-th anchor with the `i`-th
gunner until `8 - len(pairings)` pairs are formed or a half runs out. -/
def autoFill (sel : List Player) (used : List String)
    (pairingsLen : Nat) : List Pairing :=
  let remaining := sel.filter (fun p => ¬ p.name ∈ used)
  let sortedHi := sortByHi remaining
  let mid := sortedHi.length / 2
  let anchors := sortByCvsDesc (sortedHi.take mid)
  let gunners := sortByCvsDesc (sortedHi.drop mid)
  (List.range (8 - pairingsLen)).filterMap (fun i =>
    if i < anchors.length ∧ i < gunners.length then
      some (make_pairing (anchors.getD i dummy) (gunners.getD i dummy)
        "AUTO")
    else none)

/-- The full pairing phase of generate_pairings_v3.py (lines 252-298):
required pairings first, then the auto fill; a missing required member
never aborts the run. -/
def generate_pairings (sel : List Player) : List Pairing :=
  (applyRequired sel).1 ++
    autoFill sel (applyRequired sel).2 (applyRequired sel).1.length

/-- Stable insertion into a descending-`pairCvs` pairing list. -/
def insertGePairCvs (x : Pairing) : List Pairing → List Pairing
  | [] => [x]
  | y :: ys =>
    if x.pairCvs ≥ y.pairCvs then x :: y :: ys else y :: insertGePairCvs x ys

def sortPairingsByCvsDesc (l : List Pairing) : List Pairing :=
  l.foldr insertGePairCvs []

/-- The slot allocation of v3 lines 300-309 (identically v4 lines
323-331): HOME-eligible pairs sorted by `pair_cvs` descending, away-only
pairs likewise, then `home_eligible[:4] ++ away_only_pairs ++
home_eligible[4:]`. -/
def allocate (pairings : List Pairing) : List Pairing :=
  let he := sortPairingsByCvsDesc (pairings.filter (fun p => p.canPlayHome))
  let ao := sortPairingsByCvsDesc
    (pairings.filter (fun p => ¬ p.canPlayHome))
  he.take 4 ++ ao ++ he.drop 4

/-- The location labels of v3 lines 316-318: 1-based pair numbers 1..4 in
the allocated order are HOME, the rest AWAY. -/
def locate (pairings : List Pairing) : List (String × Pairing) :=
  (allocate pairings).enum.map
    (fun ip => (if ip.1 < 4 then "HOME" else "AWAY", ip.2))

theorem applyRequiredStep_found (sel : List Player)
    (st : List Pairing × List String) (pr : String × String)
    (p1 p2 : Player) (h1 : find_player sel pr.1 = some p1)
    (h2 : find_player sel pr.2 = some p2) :
    applyRequiredStep sel st pr =
      if p1.hi < p2.hi then
        (st.1 ++ [make_pairing p1 p2 "REQUIRED"],
          st.2 ++ [p1.name, p2.name])
      else
        (st.1 ++ [make_pairing p2 p1 "REQUIRED"],
          st.2 ++ [p2.name, p1.name]) := by
  unfold applyRequiredStep
  rw [h1, h2]

theorem applyRequiredStep_miss1 (sel : List Player)
    (st : List Pairing × List String) (pr : String × String)
    (h1 : find_player sel pr.1 = none) :
    applyRequiredStep sel st pr = st := by
  unfold applyRequiredStep
  rw [h1]

theorem applyRequiredStep_miss2 (sel : List Player)
    (st : List Pairing × List String) (pr : String × String)
    (h2 : find_player sel pr.2 = none) :
    applyRequiredStep sel st pr = st := by
  unfold applyRequiredStep
  rw [h2]
  cases find_player sel pr.1 <;> rfl

/-- Appending fixed pairs at the front: the fold of the required-pairings
loop only ever appends to the pair list. -/
theorem applyRequiredStep_mono (sel : List Player)
    (st : List Pairing × List String) (pr : String × String) :
    ∃ suffix, (applyRequiredStep sel st pr).1 = st.1 ++ suffix := by
  cases hf1 : find_player sel pr.1 with
  | none =>
    rw [applyRequiredStep_miss1 sel st pr hf1]
    exact ⟨[], (List.append_nil _).symm⟩
  | some p1 =>
    cases hf2 : find_player sel pr.2 with
    | none =>
      rw [applyRequiredStep_miss2 sel st pr hf2]
      exact ⟨[], (List.append_nil _).symm⟩
    | some p2 =>
      rw [applyRequiredStep_found sel st pr p1 p2 hf1 hf2]
      by_cases hc : p1.hi < p2.hi
      · rw [if_pos hc]
        exact ⟨[make_pairing p1 p2 "REQUIRED"], rfl⟩
      · rw [if_neg hc]
        exact ⟨[make_pairing p2 p1 "REQUIRED"], rfl⟩

theorem foldl_applyRequired_mono (sel : List Player) :
    ∀ (cs : List (String × String)) (st : List Pairing × List String)
      (pr : Pairing), pr ∈ st.1 →
      pr ∈ (cs.foldl (applyRequiredStep sel) st).1 := by
  intro cs
  induction cs with
  | nil => intro st pr h; exact h
  | cons c cs ih =>
    intro st pr h
    rcases applyRequiredStep_mono sel st c with ⟨suffix, hs⟩
    exact ih (applyRequiredStep sel st c) pr
      (hs ▸ List.mem_append_left _ h)

/-- Every required pairing whose two members are found in the selected
pool is realized by the fold, with provenance `REQUIRED` and the two
looked-up records as members. -/
theorem foldl_applyRequired_mem (sel : List Player) :
    ∀ (cs : List (String × String)) (st : List Pairing × List String)
      (c : String × String) (p1 p2 : Player), c ∈ cs →
      find_player sel c.1 = some p1 → find_player sel c.2 = some p2 →
      (if p1.hi < p2.hi then make_pairing p1 p2 "REQUIRED"
        else make_pairing p2 p1 "REQUIRED") ∈
        (cs.foldl (applyRequiredStep sel) st).1 := by
  intro cs
  induction cs with
  | nil => intro st c p1 p2 h; cases h
  | cons d cs ih =>
    intro st c p1 p2 hmem h1 h2
    rcases List.mem_cons.mp hmem with hc | hc
    · subst hc
      refine foldl_applyRequired_mono sel cs (applyRequiredStep sel st c)
        _ ?_
      rw [applyRequiredStep_found sel st c p1 p2 h1 h2]
      by_cases hh : p1.hi < p2.hi
      · rw [if_pos hh, if_pos hh]
        exact List.mem_append_right _ (List.mem_cons_self _ _)
      · rw [if_neg hh, if_neg hh]
        exact List.mem_append_right _ (List.mem_cons_self _ _)
    · exact ih (applyRequiredStep sel st d) c p1 p2 hc h1 h2

/-- A successful `find_player` returns a record carrying the looked-up
name. -/
theorem find_player_name (sel : List Player) (n : String) (p : Player)
    (h : find_player sel n = some p) : p.name = n := by
  have := List.find?_some h
  simpa using this

end V3

/-! ## Claim-supporting concrete inputs -/

/-- A v3 selected pool that contains "Greg Park" but not
"Hugo Lamprecht" (nor any other required-pairing member). -/
def C1sel : List V3.Player :=
  [⟨"Greg Park", 0, 11, true⟩, ⟨"Pa", 1, 10, true⟩, ⟨"Pb", 2, 9, true⟩,
   ⟨"Pc", 3, 8, true⟩, ⟨"Pd", 4, 7, true⟩]

/-- Ten-anchor and ten-gunner pools for the size-threshold claim. -/
def C2anchors : List String :=
  ["a0", "a1", "a2", "a3", "a4", "a5", "a6", "a7", "a8", "a9"]

def C2gunners : List String :=
  ["g0", "g1", "g2", "g3", "g4", "g5", "g6", "g7", "g8", "g9"]

/-- Eight finished v3 pairings of which only the two strongest are
HOME-eligible. -/
def C3mk (a b : String) (c : Int) (h : Bool) : V3.Pairing :=
  V3.make_pairing ⟨a, 0, c, h⟩ ⟨b, 0, 0, true⟩ "AUTO"

def C3pairs : List V3.Pairing :=
  [C3mk "h1a" "h1b" 20 true, C3mk "h2a" "h2b" 18 true,
   C3mk "w3a" "w3b" 16 false, C3mk "w4a" "w4b" 14 false,
   C3mk "w5a" "w5b" 12 false, C3mk "w6a" "w6b" 10 false,
   C3mk "w7a" "w7b" 8 false, C3mk "w8a" "w8b" 6 false]

/-- A CH lookup under which the two permutations of a 2x2 pool are both
feasible, tie on total combined score, and differ in total spread. -/
def C6ch : V1.NameMap := [("A1", 0), ("A2", 10), ("B1", 7), ("B2", 3)]

def C6scores : V1.NameMap := [("A1", 1), ("A2", 1), ("B1", 1), ("B2", 1)]

/-- Total attribute spread of an assignment (the tie-break quantity named
by the specification; the script itself never computes it). -/
def totalSpread (ch : V1.NameMap) (l : List (String × String)) : Int :=
  (l.map (fun p => V1.get_ch_diff ch p.1 p.2)).sum

/-- Combined-value lookup showing the either/or choice ignores value. -/
def C7scores : V1.NameMap :=
  [("Ian Scott", 1), ("Grant Syme", 5), ("Matt Maritz", 0)]

/-- A sorted-descending scored pair list on which the balanced solution is
returned although the pure-greedy solution has the strictly higher
minimum (the margin branch: the difference is below 0.5). -/
def C8pairs : List V2.SPair :=
  [⟨"A", "B", ⟨10, 1⟩⟩, ⟨"A", "C", ⟨99, 10⟩⟩, ⟨"A", "D", ⟨98, 10⟩⟩,
   ⟨"C", "D", ⟨91, 10⟩⟩, ⟨"B", "E", ⟨905, 100⟩⟩, ⟨"B", "C", ⟨9, 1⟩⟩,
   ⟨"C", "E", ⟨85, 10⟩⟩, ⟨"A", "E", ⟨84, 10⟩⟩, ⟨"B", "D", ⟨83, 10⟩⟩,
   ⟨"D", "E", ⟨82, 10⟩⟩]

/-- A sorted-descending scored pair list on which the balanced minimum
beats the greedy minimum by more than 0.5. -/
def C8wpairs : List V2.SPair :=
  [⟨"A", "B", ⟨10, 1⟩⟩, ⟨"A", "C", ⟨99, 10⟩⟩, ⟨"A", "D", ⟨98, 10⟩⟩,
   ⟨"B", "C", ⟨97, 10⟩⟩, ⟨"B", "E", ⟨96, 10⟩⟩, ⟨"C", "D", ⟨51, 10⟩⟩,
   ⟨"C", "E", ⟨5, 1⟩⟩, ⟨"A", "E", ⟨49, 10⟩⟩, ⟨"B", "D", ⟨48, 10⟩⟩,
   ⟨"D", "E", ⟨47, 10⟩⟩]

/-! ## Claims -/

/-- C1 (counterexample): with "Greg Park" selected but "Hugo Lamprecht"
absent, the run of generate_pairings_v3.py does not fail — no
`InfeasibleConstraintError` exists anywhere in the repository — and the
required pairing is silently dropped: the output is an ordinary two-pair
`AUTO` assignment. -/
theorem C1_missing_member_silently_skipped :
    V3.find_player C1sel "Greg Park" ≠ none ∧
    V3.find_player C1sel "Hugo Lamprecht" = none ∧
    (V3.generate_pairings C1sel).length = 2 ∧
    (V3.generate_pairings C1sel).all
      (fun pr => pr.constraint = "AUTO") = true := by
  refine ⟨?_, by decide, by decide, by decide⟩
  intro h
  exact Option.noConfusion h

/-- C1 (amended): every `RequiredPair` whose two members are found in the
selected pool is realized in the output with provenance `REQUIRED` and
exactly the two named members (lower handicap as anchor); when a member is
absent the constraint is skipped with a console warning and the run
continues normally, producing no error value. -/
theorem C1_required_pair_realized (sel : List V3.Player)
    (c : String × String) (p1 p2 : V3.Player)
    (hc : c ∈ V3.REQUIRED_PAIRINGS)
    (h1 : V3.find_player sel c.1 = some p1)
    (h2 : V3.find_player sel c.2 = some p2) :
    ∃ pr ∈ V3.generate_pairings sel, pr.constraint = "REQUIRED" ∧
      ((pr.anchor.name = c.1 ∧ pr.gunner.name = c.2) ∨
        (pr.anchor.name = c.2 ∧ pr.gunner.name = c.1)) := by
  have hmem := V3.foldl_applyRequired_mem sel V3.REQUIRED_PAIRINGS
    ([], []) c p1 p2 hc h1 h2
  have hn1 : p1.name = c.1 := V3.find_player_name sel c.1 p1 h1
  have hn2 : p2.name = c.2 := V3.find_player_name sel c.2 p2 h2
  by_cases hh : p1.hi < p2.hi
  · rw [if_pos hh] at hmem
    exact ⟨V3.make_pairing p1 p2 "REQUIRED",
      List.mem_append_left _ hmem, rfl, Or.inl ⟨hn1, hn2⟩⟩
  · rw [if_neg hh] at hmem
    exact ⟨V3.make_pairing p2 p1 "REQUIRED",
      List.mem_append_left _ hmem, rfl, Or.inr ⟨hn2, hn1⟩⟩

/-- C1 witness: on a pool containing both "Greg Park" and
"Hugo Lamprecht" the realized `REQUIRED` pair exists. -/
theorem C1_required_pair_realized_witness :
    V3.find_player [(⟨"Greg Park", 3, 5, true⟩ : V3.Player),
        ⟨"Hugo Lamprecht", 9, 4, true⟩] "Greg Park" =
      some ⟨"Greg Park", 3, 5, true⟩ ∧
    ∃ pr ∈ V3.generate_pairings [(⟨"Greg Park", 3, 5, true⟩ : V3.Player),
        ⟨"Hugo Lamprecht", 9, 4, true⟩],
      pr.constraint = "REQUIRED" ∧
      ((pr.anchor.name = "Greg Park" ∧ pr.gunner.name = "Hugo Lamprecht") ∨
        (pr.anchor.name = "Hugo Lamprecht" ∧ pr.gunner.name = "Greg Park")) :=
  ⟨by decide,
    C1_required_pair_realized
      [⟨"Greg Park", 3, 5, true⟩, ⟨"Hugo Lamprecht", 9, 4, true⟩]
      ("Greg Park", "Hugo Lamprecht") ⟨"Greg Park", 3, 5, true⟩
      ⟨"Hugo Lamprecht", 9, 4, true⟩ (by decide) (by decide) (by decide)⟩

/-- C2 (counterexample): with ten remaining anchors and ten remaining
gunners — beyond every claimed threshold — the permutation search still
runs and succeeds, so the fallback heuristic is not used; there is no size
check anywhere before the enumeration. -/
theorem C2_size_ten_pool_uses_exact_search :
    C2anchors.length = 10 ∧ C2gunners.length = 10 ∧
    (V1.best_assignment [] [] C2anchors C2gunners).isSome = true := by
  refine ⟨by decide, by decide, ?_⟩
  refine (V1.best_assignment_isSome_iff [] [] C2anchors C2gunners).mpr ?_
  exact ⟨C2gunners, V1.self_mem_permutationsModel C2gunners,
    by decide, by decide⟩

/-- C2 (amended): the optimizer has no size threshold: for pools of any
size, the permutation search succeeds exactly when some permutation of the
gunners is feasible with total score above the `-1` initialization, and
whenever it succeeds its result — not the fallback — is the final
assignment. -/
theorem C2_no_size_threshold :
    (∀ (ch scores : V1.NameMap) (anchors gunners : List String),
      (V1.best_assignment ch scores anchors gunners).isSome = true ↔
        ∃ p ∈ V1.permutationsModel gunners,
          V1.pairsValid ch (anchors.zip p) = true ∧
          V1.totalScore scores (anchors.zip p) > -1) ∧
    (∀ (ch scores : V1.NameMap) (anchors gunners : List String)
      (l : List (String × String)),
      V1.best_assignment ch scores anchors gunners = some l →
      V1.final_assignment ch scores anchors gunners = l) :=
  ⟨V1.best_assignment_isSome_iff, V1.final_assignment_of_some⟩

/-- C2 witness: a one-pair pool where the search succeeds and its result
is the final assignment. -/
theorem C2_no_size_threshold_witness :
    V1.best_assignment [] [] ["x"] ["y"] = some [("x", "y")] ∧
    V1.final_assignment [] [] ["x"] ["y"] = [("x", "y")] :=
  ⟨by decide, C2_no_size_threshold.2 [] [] ["x"] ["y"] [("x", "y")]
    (by decide)⟩

/-- C3 (code_bug): when fewer than four pairings are HOME-eligible the
allocation `home_eligible[:4] ++ away_only_pairs ++ home_eligible[4:]` of
v3 lines 300-309 (and identically v4 lines 323-331) puts away-only pairs
into HOME positions 3 and 4, contradicting the adjacent source comment
"AWAY-only pairs must go to AWAY slots": here the third allocated pair is
labelled HOME although `can_play_home` is false. -/
theorem C3_away_only_pair_in_home_slot :
    (V3.locate C3pairs).get? 2 =
      some ("HOME", C3mk "w3a" "w3b" 16 false) ∧
    (C3mk "w3a" "w3b" 16 false).canPlayHome = false := by
  exact ⟨by decide, by decide⟩

/-- C4 (counterexample): the exclusion check is directional.  With
"Gerdus Theron" in the anchor pool and "Jacques vd Berg" in the gunner
pool, the optimizer outputs the pair (Gerdus Theron, Jacques vd Berg)
although Gerdus Theron is in Jacques vd Berg's forbidden set — the claim
"in either role order" fails. -/
theorem C4_reversed_roles_not_excluded :
    V1.best_assignment [] [] ["Gerdus Theron"] ["Jacques vd Berg"] =
      some [("Gerdus Theron", "Jacques vd Berg")] ∧
    "Gerdus Theron" ∈ V1.EXCLUSIONS "Jacques vd Berg" := by
  exact ⟨by decide, by decide⟩

/-- C4 (amended): in the checked role order the exclusions are respected
by both optimizer phases: no pair of the final assignment (exact search or
greedy fallback) has its gunner in its anchor's exclusion list. -/
theorem C4_exclusions_respected_in_checked_order
    (ch scores : V1.NameMap) (anchors gunners : List String)
    (pr : String × String)
    (h : pr ∈ V1.final_assignment ch scores anchors gunners) :
    ¬ pr.2 ∈ V1.EXCLUSIONS pr.1 := by
  cases hb : V1.best_assignment ch scores anchors gunners with
  | some l =>
    rw [V1.final_assignment_of_some ch scores anchors gunners l hb] at h
    have hv := V1.best_assignment_mem_valid ch scores anchors gunners l
      hb pr h
    intro hx
    unfold V1.is_valid_pairing at hv
    rw [if_pos hx] at hv
    exact Bool.noConfusion hv
  | none =>
    rw [V1.final_assignment_of_none ch scores anchors gunners hb] at h
    exact (V1.fallbackGo_mem gunners anchors [] pr h).2.2.2

/-- C4 witness: a concrete final pair respects the checked-order
exclusion. -/
theorem C4_exclusions_respected_witness :
    ("u", "v") ∈ V1.final_assignment [] [] ["u"] ["v"] ∧
    ¬ "v" ∈ V1.EXCLUSIONS "u" :=
  ⟨by decide, C4_exclusions_respected_in_checked_order [] [] ["u"] ["v"]
    ("u", "v") (by decide)⟩

/-- C5 (counterexample): when the exact search is infeasible the greedy
fallback ignores the minimum-spread rule: with CH data present and
`MIN_CH_DIFF = 2 > 0`, it emits a pair of equal-handicap players with
spread 0. -/
theorem C5_fallback_violates_min_spread :
    V1.MIN_CH_DIFF > 0 ∧
    V1.best_assignment [("a", 5), ("g", 5)] [] ["a"] ["g"] = none ∧
    V1.final_assignment [("a", 5), ("g", 5)] [] ["a"] ["g"] =
      [("a", "g")] ∧
    V1.get_ch_diff [("a", 5), ("g", 5)] "a" "g" < V1.MIN_CH_DIFF := by
  exact ⟨by decide, by decide, by decide, by decide⟩

/-- C5 (amended): the minimum-spread rule holds for every pair of a
successful exact-search result whenever CH data is present; the fallback
path and the required-pair step do not check it. -/
theorem C5_exact_pairs_respect_min_spread (ch scores : V1.NameMap)
    (anchors gunners : List String) (l : List (String × String))
    (hb : V1.best_assignment ch scores anchors gunners = some l)
    (hch : ch.isEmpty = false) (pr : String × String) (h : pr ∈ l) :
    V1.get_ch_diff ch pr.1 pr.2 ≥ V1.MIN_CH_DIFF := by
  have hv := V1.best_assignment_mem_valid ch scores anchors gunners l
    hb pr h
  unfold V1.is_valid_pairing at hv
  by_cases hx : pr.2 ∈ V1.EXCLUSIONS pr.1
  · rw [if_pos hx] at hv
    exact absurd hv Bool.noConfusion
  · rw [if_neg hx] at hv
    have hne : ¬ ch.isEmpty = true := by rw [hch]; exact Bool.noConfusion
    rw [if_pos hne] at hv
    by_cases hd : V1.get_ch_diff ch pr.1 pr.2 < V1.MIN_CH_DIFF
    · rw [if_pos hd] at hv
      exact absurd hv Bool.noConfusion
    · exact not_lt.mp hd

/-- C5 witness: a feasible exact search over CH data yields a pair with
spread at least `MIN_CH_DIFF`. -/
theorem C5_exact_pairs_respect_min_spread_witness :
    V1.best_assignment [("z", 0), ("w", 9)] [] ["z"] ["w"] =
      some [("z", "w")] ∧
    V1.get_ch_diff [("z", 0), ("w", 9)] "z" "w" ≥ V1.MIN_CH_DIFF :=
  ⟨by decide, C5_exact_pairs_respect_min_spread [("z", 0), ("w", 9)] []
    ["z"] ["w"] [("z", "w")] (by decide) (by decide) ("z", "w")
    (by decide)⟩

/-- C6 (counterexample): the exact search keeps only strict score
improvements, so among equal-value feasible permutations the first
enumerated wins, with no spread tie-break: here both permutations of a
2x2 pool are feasible and tie on total value, the alternative has total
spread 6, yet the search returns the first permutation with total spread
14. -/
theorem C6_tie_not_broken_by_spread :
    V1.best_assignment C6ch C6scores ["A1", "A2"] ["B1", "B2"] =
      some [("A1", "B1"), ("A2", "B2")] ∧
    ["B2", "B1"] ∈ V1.permutationsModel ["B1", "B2"] ∧
    V1.pairsValid C6ch [("A1", "B2"), ("A2", "B1")] = true ∧
    V1.totalScore C6scores [("A1", "B2"), ("A2", "B1")] =
      V1.totalScore C6scores [("A1", "B1"), ("A2", "B2")] ∧
    totalSpread C6ch [("A1", "B2"), ("A2", "B1")] <
      totalSpread C6ch [("A1", "B1"), ("A2", "B2")] := by
  exact ⟨by decide, by decide, by decide, by decide, by decide⟩

/-- C6 (amended): the exact search returns the earliest enumerated
feasible permutation attaining the maximal total combined value: the
result is feasible, no feasible permutation scores higher, and every
earlier-enumerated feasible permutation scores strictly lower.  Equal
scores are therefore resolved by enumeration position alone — no spread or
identifier comparison takes place. -/
theorem C6_first_maximal_permutation_returned
    (ch scores : V1.NameMap) (anchors gunners : List String)
    (l : List (String × String))
    (h : V1.best_assignment ch scores anchors gunners = some l) :
    ∃ i p, (V1.permutationsModel gunners).get? i = some p ∧
      l = anchors.zip p ∧ V1.pairsValid ch l = true ∧
      (∀ q ∈ V1.permutationsModel gunners,
        V1.pairsValid ch (anchors.zip q) = true →
        V1.totalScore scores (anchors.zip q) ≤ V1.totalScore scores l) ∧
      (∀ j q, j < i → (V1.permutationsModel gunners).get? j = some q →
        V1.pairsValid ch (anchors.zip q) = true →
        V1.totalScore scores (anchors.zip q) < V1.totalScore scores l) := by
  rw [V1.best_assignment_eq] at h
  cases hx : V1.firstBestAux ch scores anchors
      (V1.permutationsModel gunners) (-1) with
  | none => rw [hx] at h; exact Option.noConfusion h
  | some r =>
    rw [hx] at h
    have hl : r.1 = l := Option.some.inj h
    rcases V1.firstBestAux_some ch scores anchors
        (V1.permutationsModel gunners) (-1) r.1 r.2 (by rw [hx]) with
      ⟨hgt, i, p, hget, hzip, hval, hsc, hall⟩
    refine ⟨i, p, hget, by rw [← hl, hzip], by rw [← hl]; exact hval,
      ?_, ?_⟩
    · intro q hq hqv
      rcases List.mem_iff_get?.mp hq with ⟨j, hj⟩
      have h2 := (hall j q hj hqv).1
      rw [← hl, ← hsc]
      exact h2
    · intro j q hji hj hqv
      have h2 := (hall j q hj hqv).2 hji
      rw [← hl, ← hsc]
      exact h2

/-- C6 witness: the characterization instantiated on a one-pair pool. -/
theorem C6_first_maximal_permutation_witness :
    V1.best_assignment [] [] ["a"] ["g"] = some [("a", "g")] ∧
    ∃ i p, (V1.permutationsModel ["g"]).get? i = some p ∧
      [("a", "g")] = (["a"] : List String).zip p ∧
      V1.pairsValid [] [("a", "g")] = true ∧
      (∀ q ∈ V1.permutationsModel ["g"],
        V1.pairsValid [] ((["a"] : List String).zip q) = true →
        V1.totalScore [] ((["a"] : List String).zip q) ≤
          V1.totalScore [] [("a", "g")]) ∧
      (∀ j q, j < i → (V1.permutationsModel ["g"]).get? j = some q →
        V1.pairsValid [] ((["a"] : List String).zip q) = true →
        V1.totalScore [] ((["a"] : List String).zip q) <
          V1.totalScore [] [("a", "g")]) :=
  ⟨by decide, C6_first_maximal_permutation_returned [] [] ["a"] ["g"]
    [("a", "g")] (by decide)⟩

/-- C7 (counterexample): the either/or constraint of generate_pairings.py
consults no scores at all: with both "Ian Scott" and "Grant Syme"
available it pairs "Matt Maritz" with "Ian Scott", the first option in
declaration order, even when the "Grant Syme" pairing has the higher
combined value; also no warning path exists — an unavailable option set
just leaves the constraint out of `fixedPairs`. -/
theorem C7_either_or_ignores_value :
    V1.fixedPairs ["Ian Scott", "Grant Syme"] ["Matt Maritz"] =
      ([("Ian Scott", "Matt Maritz")], ["Ian Scott", "Matt Maritz"]) ∧
    V1.get_combined_score C7scores "Grant Syme" "Matt Maritz" >
      V1.get_combined_score C7scores "Ian Scott" "Matt Maritz" := by
  exact ⟨by decide, by decide⟩

/-- C7 (amended): whenever the fixed gunner "Matt Maritz" is present and
unused and the first declared option "Ian Scott" is present and unused,
the either/or step emits ("Ian Scott", "Matt Maritz") — the first
available option in declaration order, independent of every score. -/
theorem C7_first_available_option (anchors gunners usedA usedG :
    List String)
    (hIan : "Ian Scott" ∈ anchors ∨ "Ian Scott" ∈ gunners)
    (hIanU : ¬ "Ian Scott" ∈ usedA)
    (hMatt : "Matt Maritz" ∈ gunners ∨ "Matt Maritz" ∈ anchors)
    (hMattU : ¬ "Matt Maritz" ∈ usedG) :
    V1.eitherOrStep anchors gunners usedA usedG =
      some ("Ian Scott", "Matt Maritz") := by
  unfold V1.eitherOrStep
  rw [if_pos (⟨hMatt, hMattU⟩ :
    (V1.EITHER_OR_GUNNER ∈ gunners ∨ V1.EITHER_OR_GUNNER ∈ anchors) ∧
      ¬ V1.EITHER_OR_GUNNER ∈ usedG)]
  have hfind : V1.EITHER_OR_ANCHOR_OPTIONS.find? (fun an =>
      (an ∈ anchors ∨ an ∈ gunners) ∧ ¬ an ∈ usedA) = some "Ian Scott" := by
    have hopt : V1.EITHER_OR_ANCHOR_OPTIONS =
        "Ian Scott" :: ["Grant Syme"] := rfl
    rw [hopt]
    exact List.find?_cons_of_pos _ (decide_eq_true ⟨hIan, hIanU⟩)
  rw [hfind]
  rfl

/-- C7 witness: on pools containing Ian Scott, Grant Syme and Matt
Maritz, the step yields the Ian Scott pairing. -/
theorem C7_first_available_option_witness :
    ("Ian Scott" ∈ ["Ian Scott", "Grant Syme"] ∨
      "Ian Scott" ∈ ["Matt Maritz"]) ∧
    V1.eitherOrStep ["Ian Scott", "Grant Syme"] ["Matt Maritz"] [] [] =
      some ("Ian Scott", "Matt Maritz") :=
  ⟨by decide, C7_first_available_option ["Ian Scott", "Grant Syme"]
    ["Matt Maritz"] [] [] (by decide) (by decide) (by decide) (by decide)⟩

/-- C8 (counterexample): the comparison of `find_balanced_pairings` uses
a 0.5 margin, so a strictly higher greedy minimum within the margin is
ignored: on `C8pairs` the pure-greedy solution's minimum (9.1) strictly
exceeds the balanced solution's (9.0), yet the balanced solution — which
differs from the greedy one — is returned, because the variance tie-break
decides inside the margin. -/
theorem C8_within_margin_higher_minimum_ignored :
    V2.find_balanced_pairings 2 C8pairs = V2.greedy_balanced 2 C8pairs ∧
    V2.greedy_balanced 2 C8pairs ≠ V2.pure_greedy 2 C8pairs ∧
    V2.Frac.blt
      (V2.listMin ((V2.greedy_balanced 2 C8pairs).map V2.SPair.score))
      (V2.listMin ((V2.pure_greedy 2 C8pairs).map V2.SPair.score)) =
      true := by
  exact ⟨by decide, by decide, by decide⟩

/-- C8 (amended): the dual-strategy comparison prefers minima only beyond
a fixed 0.5 margin: whenever both solutions reach the requested length and
the balanced minimum exceeds the greedy minimum by more than 0.5, the
balanced solution is returned (and symmetrically for greedy); within the
margin the strictly smaller variance wins, greedy taking variance ties. -/
theorem C8_minimum_preferred_beyond_margin (needed : Nat)
    (l : List V2.SPair)
    (h1 : ¬ (V2.greedy_balanced needed l).length < needed)
    (h2 : ¬ (V2.pure_greedy needed l).length < needed)
    (h : V2.Frac.blt
      (V2.Frac.add
        (V2.listMin ((V2.pure_greedy needed l).map V2.SPair.score))
        V2.half)
      (V2.listMin ((V2.greedy_balanced needed l).map V2.SPair.score)) =
      true) :
    V2.find_balanced_pairings needed l = V2.greedy_balanced needed l := by
  have hc : V2.Frac.blt
      (V2.Frac.add (V2.evaluate needed (V2.pure_greedy needed l)).2
        V2.half)
      (V2.evaluate needed (V2.greedy_balanced needed l)).2 = true := by
    rw [V2.evaluate_snd needed _ h2, V2.evaluate_snd needed _ h1]
    exact h
  unfold V2.find_balanced_pairings
  rw [if_pos hc]

/-- C8 witness: on `C8wpairs` the balanced minimum beats the greedy
minimum by more than 0.5 and the balanced solution is returned. -/
theorem C8_minimum_preferred_beyond_margin_witness :
    ¬ (V2.greedy_balanced 2 C8wpairs).length < 2 ∧
    V2.find_balanced_pairings 2 C8wpairs =
      V2.greedy_balanced 2 C8wpairs :=
  ⟨by decide, C8_minimum_preferred_beyond_margin 2 C8wpairs (by decide)
    (by decide) (by decide)⟩

/-- C9: no candidate appears in two output pairs.  First conjunct: in a
full generate_pairings.py run over pools with pairwise distinct names, the
flattened member names of the output (required pair, either/or pair, and
the exact-search or fallback assignment) are pairwise distinct.  Second
conjunct: the v2 balance-heuristic phase likewise never reuses a player
from its scored pair list. -/
theorem C9_candidate_in_at_most_one_pair :
    (∀ (ch scores : V1.NameMap) (anchors gunners : List String),
      (anchors ++ gunners).Nodup →
      (V1.pairNames (V1.all_pairs ch scores anchors gunners)).Nodup) ∧
    (∀ (needed : Nat) (l : List V2.SPair), (∀ p ∈ l, p.n1 ≠ p.n2) →
      (V2.spairNames (V2.find_balanced_pairings needed l)).Nodup) :=
  ⟨V1.all_pairs_nodup, V2.find_balanced_pairings_nodup⟩

/-- C9 witness: both conjuncts instantiated on concrete inputs. -/
theorem C9_candidate_in_at_most_one_pair_witness :
    (["x1", "x2"] ++ ["y1", "y2"] : List String).Nodup ∧
    (V1.pairNames (V1.all_pairs [] [] ["x1", "x2"] ["y1", "y2"])).Nodup ∧
    (V2.spairNames
      (V2.find_balanced_pairings 1 [⟨"u", "v", ⟨1, 1⟩⟩])).Nodup :=
  ⟨by decide,
    C9_candidate_in_at_most_one_pair.1 [] [] ["x1", "x2"] ["y1", "y2"]
      (by decide),
    C9_candidate_in_at_most_one_pair.2 1 [⟨"u", "v", ⟨1, 1⟩⟩]
      (by decide)⟩

/-- C10: with CH data loaded (`ch_lookup` nonempty) and two players both
absent from the lookup, `get_ch_diff` treats both as handicap 0, their
difference is 0, `is_valid_pairing` rejects the pair (0 < MIN_CH_DIFF =
2), and consequently no successful exact-search result ever pairs the two
handicap-unknown players together. -/
theorem C10_unknown_handicaps_rejected (ch scores : V1.NameMap)
    (anchors gunners : List String) (a g : String)
    (l : List (String × String))
    (hch : ch.isEmpty = false)
    (ha : ch.find? (fun p => p.1 = a) = none)
    (hg : ch.find? (fun p => p.1 = g) = none)
    (hb : V1.best_assignment ch scores anchors gunners = some l) :
    V1.MIN_CH_DIFF = 2 ∧ V1.mapGet ch a = 0 ∧ V1.mapGet ch g = 0 ∧
    V1.get_ch_diff ch a g = 0 ∧ V1.is_valid_pairing ch a g = false ∧
    ¬ (a, g) ∈ l := by
  have hma : V1.mapGet ch a = 0 := by unfold V1.mapGet; rw [ha]; rfl
  have hmg : V1.mapGet ch g = 0 := by unfold V1.mapGet; rw [hg]; rfl
  have hd : V1.get_ch_diff ch a g = 0 := by
    unfold V1.get_ch_diff
    rw [hma, hmg]
    decide
  have hval : V1.is_valid_pairing ch a g = false := by
    unfold V1.is_valid_pairing
    by_cases hx : g ∈ V1.EXCLUSIONS a
    · rw [if_pos hx]
    · rw [if_neg hx]
      have hne : ¬ ch.isEmpty = true := by
        rw [hch]
        exact Bool.noConfusion
      rw [if_pos hne, hd]
      rw [if_pos (show (0 : Int) < V1.MIN_CH_DIFF by decide)]
  refine ⟨rfl, hma, hmg, hd, hval, ?_⟩
  intro hmem
  have hv2 : V1.is_valid_pairing ch a g = true :=
    V1.best_assignment_mem_valid ch scores anchors gunners l hb (a, g)
      hmem
  rw [hval] at hv2
  exact Bool.noConfusion hv2

/-- C10 witness: a concrete CH lookup with two unknown players, and a
successful exact search that therefore cannot contain their pair. -/
theorem C10_unknown_handicaps_rejected_witness :
    ([("z", 0), ("w", 9)] : V1.NameMap).isEmpty = false ∧
    V1.is_valid_pairing [("z", 0), ("w", 9)] "p" "q" = false ∧
    ¬ ("p", "q") ∈ [("z", "w")] :=
  ⟨by decide,
    (C10_unknown_handicaps_rejected [("z", 0), ("w", 9)] [] ["z"] ["w"]
      "p" "q" [("z", "w")] (by decide) (by decide) (by decide)
      (by decide)).2.2.2.2.1,
    (C10_unknown_handicaps_rejected [("z", 0), ("w", 9)] [] ["z"] ["w"]
      "p" "q" [("z", "w")] (by decide) (by decide) (by decide)
      (by decide)).2.2.2.2.2⟩

end KGC
